import Mathlib

/-!
Shallow embedding of the PULSEE quantum-computing core
(`src/pulsee/Quantum_Computing.py` and `src/pulsee/operators.py`).

Conventions used throughout:
* numpy 1-D arrays are `List ℂ` values and 2-D arrays are row-major
  `List (List ℂ)` values, so numpy shape checks become statements on lengths;
* complex floating-point arithmetic is embedded as exact arithmetic over `ℂ`;
* functions that can raise a Python exception return `Except String`;
* Python's in-place `indices.reverse()` inside `basis_from_indices` is made
  explicit: the embedded function returns the final contents of the caller's
  list alongside its result.
-/

namespace Pulsee

/-- Elementwise complex conjugation of a vector (`np.conjugate`). -/
def conjL (a : List ℂ) : List ℂ := a.map (starRingEnd ℂ)

/-- Dot product without conjugation (`np.dot` on 1-D arrays). -/
def dotL (a b : List ℂ) : ℂ := (List.zipWith (· * ·) a b).sum

/-- Column `j` of a row-major matrix. -/
def colL (m : List (List ℂ)) (j : ℕ) : List ℂ := m.map (fun row => row.getD j 0)

/-- Transpose of a row-major rectangular matrix. -/
def transposeL (m : List (List ℂ)) : List (List ℂ) :=
  (List.range (m.getD 0 []).length).map (colL m)

/-- Function `adjoint` of Quantum_Computing.py: the conjugate transpose. -/
def adjoint (m : List (List ℂ)) : List (List ℂ) := (transposeL m).map conjL

/-- Matrix product (`np.matmul`) of row-major rectangular matrices. -/
def matMul (a b : List (List ℂ)) : List (List ℂ) :=
  a.map (fun row => (List.range (b.getD 0 []).length).map (fun j => dotL row (colL b j)))

/-- Matrix-vector product (`np.matmul` with a 1-D second operand). -/
def matVec (m : List (List ℂ)) (v : List ℂ) : List ℂ := m.map (fun row => dotL row v)

/-- Identity matrix `np.identity k`, embedded over `ℂ`. -/
def identityM (k : ℕ) : List (List ℂ) :=
  (List.range k).map (fun i => (List.range k).map (fun j => if i = j then (1 : ℂ) else 0))

/-- Scalar multiple of a matrix. -/
def smulM (c : ℂ) (m : List (List ℂ)) : List (List ℂ) := m.map (fun row => row.map (c * ·))

/-- Scalar multiple of a vector. -/
def smulL (c : ℂ) (v : List ℂ) : List ℂ := v.map (c * ·)

/-- Elementwise sum of two vectors. -/
def addL (a b : List ℂ) : List ℂ := List.zipWith (· + ·) a b

/-- Euclidean norm `np.linalg.norm` of a complex vector. -/
noncomputable def npNorm (a : List ℂ) : ℝ :=
  Real.sqrt ((a.map (fun z => Complex.abs z ^ 2)).sum)

/-- Function `normalize` of Quantum_Computing.py: `a / np.linalg.norm(a)`. -/
noncomputable def normalize (a : List ℂ) : List ℂ := a.map (fun z => z / (npNorm a : ℂ))

/-- Constructor check of `NGate.__init__`, for a qubit space with `qs.n = n`:
first the shape test `np.shape(x) == (2 ** n, 2 ** n)`, then the test
`np.array_equal(np.matmul(adjoint(x), x), np.identity(n))`, which raises a
`MatrixRepresentationError` when the comparison succeeds (note that the code
compares with the `n × n` identity, not the `2 ^ n × 2 ^ n` one, and raises on
equality).  On success `Operator.__init__` stores the matrix unchanged (the
`Operator` base class lives in the external `Operators` module and is an opaque
matrix wrapper per the spec). -/
noncomputable def NGate.init (n : ℕ) (x : List (List ℂ)) : Except String (List (List ℂ)) :=
  if ¬ (x.length = 2 ^ n ∧ ∀ row ∈ x, row.length = 2 ^ n) then
    .error "Input array shape invalid for qubit space"
  else if matMul (adjoint x) x = identityM n then
    .error "Input array must be unitary."
  else
    .ok x

/-- Method `NGate.apply`: `assert self._n == state.n`, then
`np.matmul(self.matrix, state.matrix)`. -/
def NGate.apply (gaten : ℕ) (gate : List (List ℂ)) (staten : ℕ) (state : List ℂ) :
    Except String (List ℂ) :=
  if gaten = staten then .ok (matVec gate state) else .error "AssertionError"

/-- Module constant `HADAMARD = NGate((1 / np.sqrt(2)) * [[1, 1], [1, -1]], QubitSpace())`
(the construction succeeds, see `NGate.init`; the stored matrix is the input). -/
noncomputable def HADAMARD : List (List ℂ) :=
  smulM ((1 / Real.sqrt 2 : ℝ) : ℂ) [[1, 1], [1, -1]]

/-- Constructor `QubitState.__init__`: accepts exactly when
`np.log2(np.shape(matrix)[0]) == qs.n`, i.e. when the vector's length is `2 ^ n`
(`np.log2` is exact on powers of two and never an integer otherwise), and stores
the vector unchanged; nothing about normalization is checked. -/
def QubitState.init (n : ℕ) (matrix : List ℂ) : Except String (List ℂ) :=
  if ¬ matrix.length = 2 ^ n then
    .error "Improper array shape for matrix representation"
  else
    .ok matrix

/-- Accumulation loop of `basis_from_indices`: starting from the first entry of
the reversed index list with `k = 1`, add `ind * 2 ^ k` for each remaining entry,
incrementing `k`. -/
def accIndex (i : ℤ) (k : ℕ) : List ℤ → ℤ
  | [] => i
  | ind :: rest => accIndex (i + ind * 2 ^ k) (k + 1) rest

/-- Method `CompositeQubitSpace.basis_from_indices`, mirroring the Python code:
validate that every entry lies in `[0, 1]` and that there are exactly `n`
entries, reverse the caller's list in place, accumulate the composite index, and
set a single 1 in `np.zeros(2 ** n)`.  The result pairs the basis vector with the
final (reversed) contents of the caller's list.  Python's `indices[0]` on an
empty list and a numpy index assignment out of range are represented by errors;
both are unreachable after validation when `n ≥ 1`. -/
def basis_from_indices (n : ℕ) (indices : List ℤ) : Except String (List ℂ × List ℤ) :=
  if ¬ (∀ i ∈ indices, 0 ≤ i ∧ i ≤ 1) then
    .error "an index is greater than 1"
  else if ¬ indices.length = n then
    .error "number of indices does not match dimension of composite qubit space"
  else
    match indices.reverse with
    | [] => .error "IndexError"
    | r0 :: rest =>
      let idx := accIndex r0 1 rest
      if 0 ≤ idx ∧ idx < 2 ^ n then
        .ok ((List.range (2 ^ n)).map (fun (j : ℕ) => if (j : ℤ) = idx then (1 : ℂ) else 0),
             r0 :: rest)
      else .error "IndexError"

/-- Recursive helper `add_bit` of `onb_matrices`, returning the list of complete
bit sequences it enumerates (depth first, the 0 branch before the 1 branch).
The Python original recurses without bound when `len(new_vec) > n`
(a `RecursionError`); that branch returns `[]` here and is unreachable for the
`n ≥ 1` spaces the `CompositeQubitSpace` constructor admits. -/
def add_bit (n : ℕ) (bit : ℤ) (vec : List ℤ) : List (List ℤ) :=
  if (vec ++ [bit]).length = n then [vec ++ [bit]]
  else if (vec ++ [bit]).length < n then
    add_bit n 0 (vec ++ [bit]) ++ add_bit n 1 (vec ++ [bit])
  else []
termination_by n - vec.length
decreasing_by
  all_goals simp_all; omega

/-- Method `CompositeQubitSpace.onb_matrices`: enumerate every bit sequence with
`add_bit(0, [])` followed by `add_bit(1, [])` and build each basis vector with
`basis_from_indices` (only the basis vector is appended to the result; the bit
sequence reversed in place is a fresh temporary in the Python code). -/
def onb_matrices (n : ℕ) : Except String (List (List ℂ)) :=
  (add_bit n 0 [] ++ add_bit n 1 []).mapM (fun v => (basis_from_indices n v).map Prod.fst)

/-- Modelled from the spec: the `Operator` / `Observable` / `Density_Matrix` base
classes (repository module `Operators.py`, imported by Quantum_Computing.py but
not under `src/`) are "opaque matrix-wrapping types", so wrapping a matrix is the
identity on its matrix representation. -/
def Density_Matrix (m : List (List ℝ)) : List (List ℝ) := m

/-- Property `QubitState.density_matrix`: entries
`np.dot(np.conjugate(onb[i]), psi) * np.dot(np.conjugate(psi), onb[j])` are
written into the array `np.zeros((len(onb), len(onb)))`, whose dtype is float64 —
numpy casts each complex value to its real part on assignment (`ComplexWarning`),
so the stored matrix is real. -/
def density_matrix (n : ℕ) (psi : List ℂ) : Except String (List (List ℝ)) :=
  (onb_matrices n).map (fun onb =>
    Density_Matrix ((List.range onb.length).map (fun i =>
      (List.range onb.length).map (fun j =>
        (dotL (conjL (onb.getD i [])) psi * dotL (conjL psi) (onb.getD j [])).re))))

/-- Cached base qubit of `QubitSpace.__init__`: `basis_from_indices([0])`. -/
def base_zero : List ℂ := [1, 0]

/-- Cached base qubit of `QubitSpace.__init__`: `basis_from_indices([1])`. -/
def base_one : List ℂ := [0, 1]

/-- Method `QubitSpace.make_state`: polar and azimuthal angles take priority;
otherwise a length-2 coefficient list is normalized; otherwise a
`MatrixRepresentationError` is raised. -/
noncomputable def make_state (alpha beta : Option ℝ) (coeffs : Option (List ℂ)) :
    Except String (List ℂ) :=
  match alpha, beta, coeffs with
  | some a, some b, _ =>
      .ok (addL (smulL ((Real.cos (b / 2) : ℝ) : ℂ) base_zero)
                (smulL (((Real.sin (b / 2) : ℝ) : ℂ) * Complex.exp (Complex.I * (a : ℂ)))
                  base_one))
  | _, _, some cs =>
      if cs.length ≠ 2 then .error "MatrixRepresentationError"
      else
        .ok (addL (smulL ((normalize cs).getD 0 0) base_zero)
                  (smulL ((normalize cs).getD 1 0) base_one))
  | _, _, none =>
      .error "State vector must be created using either coefficients or polar and azimuthal angles."

/-!
Embedding of `src/pulsee/operators.py`.  The functions there act on QuTiP `Qobj`
values; the Magnus-expansion terms only use addition, multiplication and complex
scalar multiplication of operators, so they are embedded over an arbitrary
`ℂ`-algebra `M`.  `canonical_density_matrix` additionally needs the matrix
exponential and is embedded over `Matrix (Fin d) (Fin d) ℂ`.
-/

/-- Function `commutator` of operators.py: `A * B - B * A`. -/
def commutator {M : Type} [Ring M] (A B : M) : M := A * B - B * A

/-- Function `magnus_expansion_1st_term` of operators.py: starting from `h[0]`,
add `2 * h[t + 1]` for `t` in `range(len(h) - 2)`, add `h[-1]`, scale by
`time_step / 2` and multiply by `-1j * 2 * np.pi`.  Out-of-range numpy accesses
(only possible for fewer than two samples) are embedded with default `0`. -/
noncomputable def magnus_expansion_1st_term {M : Type} [Ring M] [Algebra ℂ M]
    (h : List M) (time_step : ℝ) : M :=
  let integral := (List.range (h.length - 2)).foldl
    (fun acc t => acc + (2 : ℂ) • h.getD (t + 1) 0) (h.getD 0 0)
  (-Complex.I * 2 * (Real.pi : ℂ)) • (((time_step : ℂ) / 2) • (integral + h.getLastD 0))

/-- Function `magnus_expansion_2nd_term` of operators.py: starting from
`h[0] * 0`, add `commutator(h[t1], h[t2]) * time_step ** 2` for `t1` in
`range(len(h) - 1)` and `t2` in `range(t1 + 1)`, then scale by
`(2 * np.pi) ** 2` and `-(1 / 2)`. -/
noncomputable def magnus_expansion_2nd_term {M : Type} [Ring M] [Algebra ℂ M]
    (h : List M) (time_step : ℝ) : M :=
  let integral := (List.range (h.length - 1)).foldl
    (fun acc t1 => (List.range (t1 + 1)).foldl
      (fun acc2 t2 =>
        acc2 + (((time_step : ℂ) ^ 2) • commutator (h.getD t1 0) (h.getD t2 0))) acc)
    (h.getD 0 0 * 0)
  (((2 * Real.pi : ℝ) ^ 2 : ℝ) : ℂ) • ((-(1 / 2 : ℂ)) • integral)

/-- Function `magnus_expansion_3rd_term` of operators.py: starting from
`h[0] * 0`, add
`(commutator(h[t1], commutator(h[t2], h[t3])) + commutator(h[t3], commutator(h[t2], h[t1]))) * time_step ** 3`
for `t1` in `range(len(h) - 1)`, `t2` in `range(t1 + 1)`, `t3` in
`range(t2 + 1)`, then multiply by `(1j / 6) * (2 * np.pi) ** 3`. -/
noncomputable def magnus_expansion_3rd_term {M : Type} [Ring M] [Algebra ℂ M]
    (h : List M) (time_step : ℝ) : M :=
  let integral := (List.range (h.length - 1)).foldl
    (fun acc t1 => (List.range (t1 + 1)).foldl
      (fun acc2 t2 => (List.range (t2 + 1)).foldl
        (fun acc3 t3 =>
          acc3 + (((time_step : ℂ) ^ 3) •
            (commutator (h.getD t1 0) (commutator (h.getD t2 0) (h.getD t3 0)) +
             commutator (h.getD t3 0) (commutator (h.getD t2 0) (h.getD t1 0))))) acc2) acc)
    (h.getD 0 0 * 0)
  ((Complex.I / 6) * (((2 * Real.pi : ℝ) ^ 3 : ℝ) : ℂ)) • integral

/-- Value of `scipy.constants.Planck` (the exact SI definition used by scipy). -/
def Planck : ℝ := 6.62607015e-34

/-- Value of `scipy.constants.Boltzmann` (the exact SI definition used by scipy). -/
def Boltzmann : ℝ := 1.380649e-23

/-- Predicate `unit_trace` of operators.py: `np.isclose(q.tr(), 1, rtol=1e-6)`
with numpy's default `atol = 1e-8`, i.e. `|tr(q) - 1| ≤ atol + rtol * |1|`. -/
noncomputable def unit_trace {d : ℕ} (q : Matrix (Fin d) (Fin d) ℂ) : Prop :=
  Complex.abs (q.trace - 1) ≤ 1e-8 + 1e-6 * Complex.abs 1

/-- Modelled from the spec: QuTiP's `Qobj.unit()` (external library code, not part
of this repository) is the "make unit-trace" normalization that "returns its
unit-trace-normalized form" — the operator divided by its trace. -/
noncomputable def Qobj.unit {d : ℕ} (q : Matrix (Fin d) (Fin d) ℂ) :
    Matrix (Fin d) (Fin d) ℂ :=
  q.trace⁻¹ • q

/-- Function `canonical_density_matrix` of operators.py: raise a `ValueError` for
`temperature <= 0`, otherwise exponentiate
`-((Planck / Boltzmann) * hamiltonian * 2 * np.pi * 1e6) / temperature`
(QuTiP's `Qobj.expm`, external library code, is the matrix exponential) and
return its `unit()` normalization. -/
noncomputable def canonical_density_matrix {d : ℕ} (hamiltonian : Matrix (Fin d) (Fin d) ℂ)
    (temperature : ℝ) : Except String (Matrix (Fin d) (Fin d) ℂ) :=
  if temperature ≤ 0 then .error "The temperature must take a positive value"
  else
    .ok (Qobj.unit (NormedSpace.exp ℂ
      (((-(Planck / Boltzmann) * 2 * Real.pi * 1e6 / temperature : ℝ) : ℂ) • hamiltonian)))

/-- Reduced Planck constant, used to state the claimed exponent formula
`exp(-(ℏ / k_B) * H * 2 * π * 1e6 / T)` literally. -/
noncomputable def hbar : ℝ := Planck / (2 * Real.pi)

/-- Statement-side form of the claimed result of `canonical_density_matrix`,
following the claim's words: the unit-trace normalization of
`exp(-(ℏ / k_B) * H * 2 * π * 1e6 / T)` with `ℏ` the reduced Planck constant. -/
noncomputable def claimed_canonical {d : ℕ} (H : Matrix (Fin d) (Fin d) ℂ) (T : ℝ) :
    Matrix (Fin d) (Fin d) ℂ :=
  Qobj.unit (NormedSpace.exp ℂ (((-(hbar / Boltzmann) * 2 * Real.pi * 1e6 / T : ℝ) : ℂ) • H))

/-!
Specification-side auxiliary definitions used to state the claims.
-/

/-- Index described by the spec for `basis_from_indices`: reverse the bit
sequence and accumulate `bit * 2 ^ k` over the positions `k` of the reversed
sequence. -/
def specIndex (indices : List ℤ) : ℤ :=
  ∑ k ∈ Finset.range indices.reverse.length, indices.reverse.getD k 0 * 2 ^ k

/-- Little-endian value of a bit list (proof-side helper). -/
def valLE : List ℤ → ℤ
  | [] => 0
  | b :: t => b + 2 * valLE t

/-- Big-endian bit representation of `i` with `m` bits (proof-side helper). -/
def natToBits : ℕ → ℕ → List ℤ
  | 0, _ => []
  | m + 1, i => (if i < 2 ^ m then (0 : ℤ) else 1) :: natToBits m (i % 2 ^ m)

/-- All bit sequences of length `m` in lexicographic order, 0 before 1
(proof-side helper). -/
def allBits : ℕ → List (List ℤ)
  | 0 => [[]]
  | m + 1 => (allBits m).map (List.cons 0) ++ (allBits m).map (List.cons 1)

/-- Standard basis vector of length `N` with its 1 at position `i`. -/
def unitVec (N i : ℕ) : List ℂ := (List.range N).map (fun j => if j = i then (1 : ℂ) else 0)

/-- Concrete state used to refute the literal entry formula of the claim on
`QubitState.density_matrix`: the result of `make_state(coeffs=[1, 1j])`. -/
noncomputable def psiC : List ℂ :=
  [1 / ((Real.sqrt 2 : ℝ) : ℂ), Complex.I / ((Real.sqrt 2 : ℝ) : ℂ)]

/-!
General-purpose helper lemmas.
-/

theorem aux_foldl_fixed {α β : Type} (f : β → α → β) (init : β) (l : List α)
    (hf : ∀ b : β, ∀ a ∈ l, f b a = b) : l.foldl f init = init := by
  induction l generalizing init with
  | nil => rfl
  | cons x xs ih =>
    rw [List.foldl_cons, hf init x (by simp)]
    exact ih init (fun b a ha => hf b a (by simp [ha]))

theorem aux_foldl_add_sum {M : Type} [AddCommMonoid M] (f : ℕ → M) (init : M) (k : ℕ) :
    (List.range k).foldl (fun acc t => acc + f t) init =
      init + ((List.range k).map f).sum := by
  induction k with
  | zero => simp
  | succ k ih =>
    rw [List.range_succ, List.foldl_append, List.map_append, ih]
    simp [add_assoc]

theorem aux_getD_eq_of_all_eq {M : Type} (h : List M) (A : M) (hall : ∀ x ∈ h, x = A)
    (i : ℕ) (hi : i < h.length) (d : M) : h.getD i d = A := by
  rw [List.getD_eq_getElem h d hi]
  exact hall _ (List.getElem_mem hi)

/-!
Claim theorems start here.
-/

/-- C10: `QubitState` construction raises only on dimension mismatch — every
vector of length `2 ^ qs.n` is accepted and stored unchanged, with no
normalization (or nonzero) check; every other vector is rejected. -/
theorem C10_qubitstate_ctor (n : ℕ) (v : List ℂ) :
    (QubitState.init n v = .ok v ↔ v.length = 2 ^ n) ∧
    ((∃ e, QubitState.init n v = .error e) ↔ ¬ v.length = 2 ^ n) := by
  unfold QubitState.init
  by_cases h : v.length = 2 ^ n <;> simp [h]

/-- C1: evaluation of the `NGate.__init__` checks at the failing input
`[[1, 1], [1, 1]]` on the single-qubit space — a non-unitary matrix of correct
shape, whose construction nevertheless succeeds, because the code compares the
`2 ^ n × 2 ^ n` product `adjoint(x) @ x` with the `n × n` identity (never equal)
and would raise on equality rather than inequality.  The claim says such a
construction must raise a representation error. -/
theorem C1_ngate_accepts_non_unitary :
    NGate.init 1 [[1, 1], [1, 1]] = .ok [[1, 1], [1, 1]] ∧
    matMul (adjoint [[1, 1], [1, 1]]) [[1, 1], [1, 1]] ≠ identityM (2 ^ 1) := by
  have hadj : adjoint [[1, 1], [1, 1]] = [[1, 1], [1, 1]] := by
    simp [adjoint, transposeL, colL, conjL, List.range_succ]
  have hmul : matMul (adjoint [[1, 1], [1, 1]]) [[1, 1], [1, 1]] = [[2, 2], [2, 2]] := by
    rw [hadj]
    simp [matMul, colL, dotL, List.range_succ]
    norm_num
  have hid2 : identityM 2 = [[1, 0], [0, 1]] := by
    simp [identityM, List.range_succ]
  have hshape : (([[1, 1], [1, 1]] : List (List ℂ)).length = 2 ^ 1 ∧
      ∀ row ∈ ([[1, 1], [1, 1]] : List (List ℂ)), row.length = 2 ^ 1) := by
    simp
  have hne2 : matMul (adjoint [[1, 1], [1, 1]]) [[1, 1], [1, 1]] ≠ identityM (2 ^ 1) := by
    rw [hmul, pow_one, hid2]
    intro hEq
    injection hEq with h1 _
    injection h1 with h2 _
    exact absurd h2 (by norm_num)
  refine ⟨?_, hne2⟩
  unfold NGate.init
  rw [if_neg (not_not_intro hshape), if_neg ?_]
  intro hEq
  rw [hmul] at hEq
  have := congrArg List.length hEq
  simp [identityM] at this

/-- C2: the `HADAMARD` constant is accepted by the `NGate` construction checks;
`apply` on a dimension-matching state returns the matrix product of the gate
with the state vector (and fails on a dimension mismatch); applying `HADAMARD`
twice to the basis state `|0⟩` returns `|0⟩` exactly. -/
theorem C2_hadamard_apply :
    NGate.init 1 HADAMARD = .ok HADAMARD ∧
    NGate.apply 1 HADAMARD 1 base_zero = .ok (matVec HADAMARD base_zero) ∧
    (∃ e, NGate.apply 1 HADAMARD 2 base_zero = .error e) ∧
    matVec HADAMARD (matVec HADAMARD base_zero) = base_zero := by
  have hr : ((Real.sqrt 2 : ℝ) : ℂ)⁻¹ * ((Real.sqrt 2 : ℝ) : ℂ)⁻¹ = 1 / 2 := by
    rw [← mul_inv, ← Complex.ofReal_mul, Real.mul_self_sqrt (by norm_num : (0 : ℝ) ≤ 2)]
    norm_num
  have hH : HADAMARD
      = [[((1 / Real.sqrt 2 : ℝ) : ℂ), ((1 / Real.sqrt 2 : ℝ) : ℂ)],
         [((1 / Real.sqrt 2 : ℝ) : ℂ), -((1 / Real.sqrt 2 : ℝ) : ℂ)]] := by
    simp [HADAMARD, smulM]
  have hshapeH : (HADAMARD.length = 2 ^ 1 ∧ ∀ row ∈ HADAMARD, row.length = 2 ^ 1) := by
    rw [hH]
    simp
  refine ⟨?_, ?_, ?_, ?_⟩
  · unfold NGate.init
    rw [if_neg (not_not_intro hshapeH), if_neg ?_]
    intro hEq
    have := congrArg List.length hEq
    rw [hH] at this
    simp [matMul, adjoint, transposeL, colL, conjL, identityM, List.range_succ] at this
  · simp [NGate.apply]
  · simp [NGate.apply]
  · rw [hH]
    simp only [matVec, dotL, base_zero, List.map_cons, List.map_nil, List.zipWith_cons_cons,
      List.zipWith_nil_right, List.sum_cons, List.sum_nil]
    push_cast
    norm_num
    linear_combination (2 : ℂ) * hr

/-- C7: when every sample of `h` is the same operator `A`, every commutator term
of the 2nd- and 3rd-order Magnus terms vanishes, so both return the zero
operator, for any sample count `N ≥ 1` and any `time_step`. -/
theorem C7_magnus_2nd_3rd_vanish {M : Type} [Ring M] [Algebra ℂ M] (A : M)
    (h : List M) (time_step : ℝ) (hne : h ≠ []) (hall : ∀ x ∈ h, x = A) :
    magnus_expansion_2nd_term h time_step = 0 ∧
    magnus_expansion_3rd_term h time_step = 0 := by
  have hlen : 0 < h.length := List.length_pos.mpr hne
  have hget : ∀ i, i < h.length → h.getD i 0 = A :=
    fun i hi => aux_getD_eq_of_all_eq h A hall i hi 0
  have hcomm : commutator A A = 0 := sub_self _
  have hcomm0 : ∀ B : M, commutator B 0 = 0 := by
    intro B
    simp [commutator]
  constructor
  · unfold magnus_expansion_2nd_term
    rw [aux_foldl_fixed]
    · simp
    · intro b t1 ht1
      rw [List.mem_range] at ht1
      apply aux_foldl_fixed
      intro b2 t2 ht2
      rw [List.mem_range] at ht2
      rw [hget t1 (by omega), hget t2 (by omega), hcomm, smul_zero, add_zero]
  · unfold magnus_expansion_3rd_term
    rw [aux_foldl_fixed]
    · simp
    · intro b t1 ht1
      rw [List.mem_range] at ht1
      apply aux_foldl_fixed
      intro b2 t2 ht2
      rw [List.mem_range] at ht2
      apply aux_foldl_fixed
      intro b3 t3 ht3
      rw [List.mem_range] at ht3
      rw [hget t1 (by omega), hget t2 (by omega), hget t3 (by omega), hcomm,
        hcomm0, add_zero, smul_zero, add_zero]

/-- Witness for C7 at the concrete input `h = [i, i]`, `time_step = 2`. -/
theorem C7_witness :
    ([Complex.I, Complex.I] ≠ ([] : List ℂ)) ∧
    (∀ x ∈ [Complex.I, Complex.I], x = Complex.I) ∧
    magnus_expansion_2nd_term [Complex.I, Complex.I] (2 : ℝ) = 0 ∧
    magnus_expansion_3rd_term [Complex.I, Complex.I] (2 : ℝ) = 0 :=
  ⟨by simp, by simp,
    (C7_magnus_2nd_3rd_vanish Complex.I [Complex.I, Complex.I] 2 (by simp) (by simp)).1,
    (C7_magnus_2nd_3rd_vanish Complex.I [Complex.I, Complex.I] 2 (by simp) (by simp)).2⟩

/-- C6: the 1st-order Magnus term is the trapezoidal rule — weight 1 on the
first and last samples, weight 2 on every interior sample, scaled by
`time_step / 2` — multiplied by `-i * 2 * π`; in particular, for a two-sample
input `[H0, H1]` it equals `-i * 2 * π * (H0 + H1) * time_step / 2` exactly. -/
theorem C6_magnus_1st_trapezoid {M : Type} [Ring M] [Algebra ℂ M] :
    (∀ (h : List M) (time_step : ℝ), 2 ≤ h.length →
      magnus_expansion_1st_term h time_step =
        (-Complex.I * 2 * (Real.pi : ℂ)) • (((time_step : ℂ) / 2) •
          (h.getD 0 0 +
            (2 : ℂ) • ((List.range (h.length - 2)).map (fun t => h.getD (t + 1) 0)).sum +
            h.getLastD 0))) ∧
    (∀ (H0 H1 : M) (time_step : ℝ),
      magnus_expansion_1st_term [H0, H1] time_step =
        (-Complex.I * 2 * (Real.pi : ℂ) * ((time_step : ℂ) / 2)) • (H0 + H1)) := by
  have hsum : ∀ (h : List M) (k : ℕ),
      (List.map (fun t => (2 : ℂ) • h.getD (t + 1) 0) (List.range k)).sum =
        (2 : ℂ) • (List.map (fun t => h.getD (t + 1) 0) (List.range k)).sum := by
    intro h k
    rw [show (fun t => (2 : ℂ) • h.getD (t + 1) 0)
        = (fun x => (2 : ℂ) • x) ∘ (fun t => h.getD (t + 1) 0) from rfl]
    rw [← List.map_map, ← List.smul_sum]
  constructor
  · intro h dt _
    unfold magnus_expansion_1st_term
    rw [aux_foldl_add_sum (fun t => (2 : ℂ) • h.getD (t + 1) 0) (h.getD 0 0) (h.length - 2),
      hsum]
  · intro H0 H1 dt
    unfold magnus_expansion_1st_term
    simp only [List.length_cons, List.length_nil]
    norm_num
    rw [smul_smul, smul_smul, mul_assoc]

/-!
Lemma chain for the basis-enumeration claims C4, C5 and C9.
-/

theorem accIndex_eq (rest : List ℤ) : ∀ (i : ℤ) (k : ℕ),
    accIndex i k rest = i + 2 ^ k * valLE rest := by
  induction rest with
  | nil =>
    intro i k
    simp [accIndex, valLE]
  | cons b t ih =>
    intro i k
    simp only [accIndex, valLE, ih, pow_succ]
    ring

theorem valLE_nonneg_lt (l : List ℤ) (h01 : ∀ i ∈ l, 0 ≤ i ∧ i ≤ 1) :
    0 ≤ valLE l ∧ valLE l < 2 ^ l.length := by
  induction l with
  | nil => simp [valLE]
  | cons b t ih =>
    have hb := h01 b (by simp)
    have ht := ih (fun i hi => h01 i (by simp [hi]))
    simp only [valLE, List.length_cons, pow_succ]
    omega

theorem valLE_append (xs : List ℤ) (c : ℤ) :
    valLE (xs ++ [c]) = valLE xs + c * 2 ^ xs.length := by
  induction xs with
  | nil => simp [valLE]
  | cons b t ih =>
    rw [show (b :: t) ++ [c] = b :: (t ++ [c]) from rfl,
      show valLE (b :: (t ++ [c])) = b + 2 * valLE (t ++ [c]) from rfl,
      ih, List.length_cons, pow_succ,
      show valLE (b :: t) = b + 2 * valLE t from rfl]
    ring

theorem valLE_eq_sum (l : List ℤ) :
    valLE l = ∑ k ∈ Finset.range l.length, l.getD k 0 * 2 ^ k := by
  induction l with
  | nil => simp [valLE]
  | cons b t ih =>
    rw [valLE, ih, List.length_cons, Finset.sum_range_succ']
    simp only [List.getD_cons_succ, List.getD_cons_zero, pow_zero, mul_one, pow_succ]
    rw [add_comm]
    congr 1
    rw [Finset.mul_sum]
    apply Finset.sum_congr rfl
    intro k _
    ring

theorem specIndex_eq (l : List ℤ) : specIndex l = valLE l.reverse :=
  (valLE_eq_sum l.reverse).symm

theorem natToBits_length (m : ℕ) : ∀ i, (natToBits m i).length = m := by
  induction m with
  | zero => intro i; rfl
  | succ m ih => intro i; simp [natToBits, ih]

theorem natToBits_mem01 (m : ℕ) : ∀ i, ∀ b ∈ natToBits m i, 0 ≤ b ∧ b ≤ 1 := by
  induction m with
  | zero =>
    intro i b hb
    simp [natToBits] at hb
  | succ m ih =>
    intro i b hb
    simp only [natToBits, List.mem_cons] at hb
    rcases hb with hb | hb
    · subst hb
      split <;> omega
    · exact ih _ b hb

theorem valLE_reverse_natToBits (m : ℕ) : ∀ i, i < 2 ^ m →
    valLE ((natToBits m i).reverse) = (i : ℤ) := by
  induction m with
  | zero =>
    intro i hi
    have : i = 0 := by omega
    subst this
    simp [natToBits, valLE]
  | succ m ih =>
    intro i hi
    have hmod : i % 2 ^ m < 2 ^ m := Nat.mod_lt _ (by positivity)
    simp only [natToBits, List.reverse_cons]
    rw [valLE_append, List.length_reverse, natToBits_length m, ih _ hmod]
    by_cases hlt : i < 2 ^ m
    · rw [if_pos hlt, Nat.mod_eq_of_lt hlt]
      ring
    · rw [if_neg hlt]
      have hle : (2 : ℕ) ^ m ≤ i := le_of_not_lt hlt
      have hsub : i % 2 ^ m = i - 2 ^ m := by
        rw [Nat.mod_eq_sub_mod hle, Nat.mod_eq_of_lt (by rw [pow_succ] at hi; omega)]
      rw [hsub]
      push_cast [hle]
      ring

theorem allBits_eq (m : ℕ) : allBits m = (List.range (2 ^ m)).map (natToBits m) := by
  induction m with
  | zero => rfl
  | succ m ih =>
    simp only [allBits, ih]
    rw [show (2 : ℕ) ^ (m + 1) = 2 ^ m + 2 ^ m by rw [pow_succ]; ring]
    rw [List.range_add, List.map_append, List.map_map, List.map_map]
    congr 1
    · apply List.map_congr_left
      intro i hi
      rw [List.mem_range] at hi
      simp only [Function.comp_apply, natToBits, if_pos hi, Nat.mod_eq_of_lt hi]
    · rw [List.map_map]
      apply List.map_congr_left
      intro i hi
      rw [List.mem_range] at hi
      simp only [Function.comp_apply, natToBits]
      rw [if_neg (by omega), Nat.add_mod_left, Nat.mod_eq_of_lt hi]

theorem add_bit_eq : ∀ (d n : ℕ) (vec : List ℤ) (bit : ℤ),
    vec.length + 1 + d = n →
    add_bit n bit vec = (allBits d).map (fun t => vec ++ bit :: t) := by
  intro d
  induction d with
  | zero =>
    intro n vec bit hlen
    rw [add_bit]
    rw [if_pos (by simp; omega)]
    simp [allBits]
  | succ d ih =>
    intro n vec bit hlen
    rw [add_bit]
    rw [if_neg (by simp; omega), if_pos (by simp; omega)]
    rw [ih n (vec ++ [bit]) 0 (by simp; omega), ih n (vec ++ [bit]) 1 (by simp; omega)]
    simp only [allBits, List.map_append, List.map_map]
    congr 1 <;> apply List.map_congr_left <;> intro t ht <;> simp

theorem basis_from_indices_ok (n : ℕ) (hn : 1 ≤ n) (indices : List ℤ)
    (h01 : ∀ i ∈ indices, 0 ≤ i ∧ i ≤ 1) (hlen : indices.length = n) :
    basis_from_indices n indices =
      .ok ((List.range (2 ^ n)).map
            (fun (j : ℕ) => if (j : ℤ) = valLE indices.reverse then (1 : ℂ) else 0),
           indices.reverse) := by
  have hnil : indices ≠ [] := by
    intro h
    rw [h] at hlen
    simp at hlen
    omega
  have hrevne : indices.reverse ≠ [] := by
    simpa using hnil
  obtain ⟨r0, rest, hrev⟩ := List.exists_cons_of_ne_nil hrevne
  have h01r : ∀ i ∈ indices.reverse, 0 ≤ i ∧ i ≤ 1 :=
    fun i hi => h01 i (List.mem_reverse.mp hi)
  have hbnd := valLE_nonneg_lt indices.reverse h01r
  rw [List.length_reverse, hlen] at hbnd
  unfold basis_from_indices
  rw [hrev] at hbnd ⊢
  rw [if_neg (not_not_intro h01), if_neg (not_not_intro hlen)]
  dsimp only
  have hacc : accIndex r0 1 rest = valLE (r0 :: rest) := by
    rw [accIndex_eq]
    simp only [valLE]
    ring
  rw [hacc, if_pos hbnd]

theorem unitVec_eq_map_cast (N i : ℕ) :
    (List.range N).map (fun (j : ℕ) => if (j : ℤ) = (i : ℤ) then (1 : ℂ) else 0) = unitVec N i := by
  unfold unitVec
  apply List.map_congr_left
  intro j _
  simp [Nat.cast_inj]

theorem basis_from_indices_natToBits (m : ℕ) (hm : 1 ≤ m) (i : ℕ) (hi : i < 2 ^ m) :
    basis_from_indices m (natToBits m i) = .ok (unitVec (2 ^ m) i, (natToBits m i).reverse) := by
  rw [basis_from_indices_ok m hm _ (natToBits_mem01 m i) (natToBits_length m i)]
  rw [valLE_reverse_natToBits m i hi, unitVec_eq_map_cast]

theorem aux_mapM_ok {α β : Type} (f : α → Except String β) (g : α → β) :
    ∀ l : List α, (∀ x ∈ l, f x = .ok (g x)) → l.mapM f = .ok (l.map g) := by
  intro l
  induction l with
  | nil =>
    intro _
    rfl
  | cons x xs ih =>
    intro hall
    rw [List.mapM_cons, hall x (by simp), ih (fun y hy => hall y (by simp [hy]))]
    rfl

theorem onb_matrices_eq (n : ℕ) (hn : 1 ≤ n) :
    onb_matrices n = .ok ((List.range (2 ^ n)).map (unitVec (2 ^ n))) := by
  unfold onb_matrices
  have h0 : add_bit n 0 [] = (allBits (n - 1)).map (fun t => (0 : ℤ) :: t) := by
    have h := add_bit_eq (n - 1) n [] 0 (by simp; omega)
    simpa using h
  have h1 : add_bit n 1 [] = (allBits (n - 1)).map (fun t => (1 : ℤ) :: t) := by
    have h := add_bit_eq (n - 1) n [] 1 (by simp; omega)
    simpa using h
  have hcat : add_bit n 0 [] ++ add_bit n 1 [] = allBits n := by
    rw [h0, h1]
    conv_rhs => rw [show n = (n - 1) + 1 by omega]
    rfl
  rw [hcat, allBits_eq]
  have hmapM : ((List.range (2 ^ n)).map (natToBits n)).mapM
      (fun v => (basis_from_indices n v).map Prod.fst) =
      .ok (((List.range (2 ^ n)).map (natToBits n)).map
        (fun bits => (List.range (2 ^ n)).map
          (fun (j : ℕ) => if (j : ℤ) = valLE bits.reverse then (1 : ℂ) else 0))) := by
    apply aux_mapM_ok
    intro x hx
    rw [List.mem_map] at hx
    obtain ⟨i, hi, rfl⟩ := hx
    rw [List.mem_range] at hi
    rw [basis_from_indices_ok n hn _ (natToBits_mem01 n i) (natToBits_length n i)]
    rfl
  rw [hmapM, List.map_map]
  congr 1
  apply List.map_congr_left
  intro i hi
  rw [List.mem_range] at hi
  simp only [Function.comp_apply]
  rw [valLE_reverse_natToBits n i hi, unitVec_eq_map_cast]

theorem unitVec_getD (N i k : ℕ) (hk : k < N) :
    (unitVec N i).getD k 0 = if k = i then (1 : ℂ) else 0 := by
  unfold unitVec
  rw [List.getD_eq_getElem _ _ (by simpa using hk), List.getElem_map, List.getElem_range]

theorem unitVec_map_nodup (N : ℕ) : ((List.range N).map (unitVec N)).Nodup := by
  apply List.Nodup.map_on ?_ (List.nodup_range N)
  intro i hi j hj hij
  rw [List.mem_range] at hi hj
  by_contra hne
  have h := congrArg (fun v => v.getD i 0) hij
  simp only at h
  rw [unitVec_getD N i i hi, unitVec_getD N j i hi, if_pos rfl, if_neg hne] at h
  exact one_ne_zero h

/-- C5: for every `n ≥ 1`, `onb_matrices` returns exactly `2 ^ n`
pairwise-distinct unit basis vectors, the vector at enumeration position `i`
being the standard basis vector with its 1 at index `i`, in agreement with the
index mapping of `basis_from_indices` on the length-`n` bit sequence whose
big-endian value is `i`. -/
theorem C5_onb_enumeration (n : ℕ) (hn : 1 ≤ n) :
    onb_matrices n = .ok ((List.range (2 ^ n)).map (unitVec (2 ^ n))) ∧
    ((List.range (2 ^ n)).map (unitVec (2 ^ n))).length = 2 ^ n ∧
    ((List.range (2 ^ n)).map (unitVec (2 ^ n))).Nodup ∧
    (∀ i, i < 2 ^ n → (basis_from_indices n (natToBits n i)).map Prod.fst =
      .ok (unitVec (2 ^ n) i)) :=
  ⟨onb_matrices_eq n hn, by simp, unitVec_map_nodup _,
    fun i hi => by rw [basis_from_indices_natToBits n hn i hi]; rfl⟩

/-- Witness for C5 at the concrete space dimension `n = 1`. -/
theorem C5_witness :
    1 ≤ 1 ∧
    (onb_matrices 1 = .ok ((List.range (2 ^ 1)).map (unitVec (2 ^ 1))) ∧
     ((List.range (2 ^ 1)).map (unitVec (2 ^ 1))).length = 2 ^ 1 ∧
     ((List.range (2 ^ 1)).map (unitVec (2 ^ 1))).Nodup ∧
     (∀ i, i < 2 ^ 1 → (basis_from_indices 1 (natToBits 1 i)).map Prod.fst =
       .ok (unitVec (2 ^ 1) i))) :=
  ⟨le_refl 1, C5_onb_enumeration 1 (le_refl 1)⟩

/-- C4: `basis_from_indices` succeeds exactly when every entry is 0 or 1 and the
number of entries equals the space's `n` (raising a representation error
otherwise), and on success it returns the length-`2 ^ n` unit vector whose 1
sits at the index obtained by reversing the bit sequence and accumulating
`bit * 2 ^ k`. -/
theorem C4_basis_validation (n : ℕ) (hn : 1 ≤ n) (indices : List ℤ) :
    ((∃ v, basis_from_indices n indices = .ok v) ↔
      ((∀ i ∈ indices, i = 0 ∨ i = 1) ∧ indices.length = n)) ∧
    ((∀ i ∈ indices, i = 0 ∨ i = 1) → indices.length = n →
      (basis_from_indices n indices).map Prod.fst =
        .ok ((List.range (2 ^ n)).map
          (fun (j : ℕ) => if (j : ℤ) = specIndex indices then (1 : ℂ) else 0))) := by
  have hconv : (∀ i ∈ indices, i = 0 ∨ i = 1) ↔ (∀ i ∈ indices, 0 ≤ i ∧ i ≤ 1) := by
    constructor <;> intro h i hi <;> have := h i hi <;> omega
  constructor
  · constructor
    · rintro ⟨v, hv⟩
      by_contra hcon
      unfold basis_from_indices at hv
      by_cases h01 : ∀ i ∈ indices, 0 ≤ i ∧ i ≤ 1
      · rw [if_neg (not_not_intro h01)] at hv
        by_cases hlen : indices.length = n
        · exact hcon ⟨hconv.mpr h01, hlen⟩
        · rw [if_pos hlen] at hv
          exact absurd hv (by simp)
      · rw [if_pos h01] at hv
        exact absurd hv (by simp)
    · rintro ⟨h01, hlen⟩
      rw [basis_from_indices_ok n hn indices (hconv.mp h01) hlen]
      exact ⟨_, rfl⟩
  · intro h01 hlen
    rw [basis_from_indices_ok n hn indices (hconv.mp h01) hlen, specIndex_eq]
    rfl

/-- Witness for C4 at the concrete input `n = 2`, `indices = [1, 0]`. -/
theorem C4_witness :
    1 ≤ 2 ∧
    (((∃ v, basis_from_indices 2 [1, 0] = .ok v) ↔
      ((∀ i ∈ [(1 : ℤ), 0], i = 0 ∨ i = 1) ∧ ([(1 : ℤ), 0] : List ℤ).length = 2)) ∧
     ((∀ i ∈ [(1 : ℤ), 0], i = 0 ∨ i = 1) → ([(1 : ℤ), 0] : List ℤ).length = 2 →
      (basis_from_indices 2 [1, 0]).map Prod.fst =
        .ok ((List.range (2 ^ 2)).map
          (fun (j : ℕ) => if (j : ℤ) = specIndex [1, 0] then (1 : ℂ) else 0)))) :=
  ⟨by norm_num, C4_basis_validation 2 (by norm_num) [1, 0]⟩

/-- C9: counterexample to purity — `basis_from_indices` reverses the
caller-supplied list in place, so after the valid call with `[0, 1]` the
caller's list holds `[1, 0]`, not the original sequence. -/
theorem C9_mutates_caller_list :
    (basis_from_indices 2 [0, 1]).map Prod.snd = .ok [1, 0] ∧ [(1 : ℤ), 0] ≠ [0, 1] := by
  constructor
  · rw [basis_from_indices_ok 2 (by norm_num) [0, 1] (by decide) rfl]
    rfl
  · simp

/-- C9 (amended): on every valid bit sequence, `basis_from_indices` computes its
result as a function of the original sequence, but leaves the caller's list
reversed in place rather than unchanged. -/
theorem C9_reverse_in_place (n : ℕ) (hn : 1 ≤ n) (indices : List ℤ)
    (h01 : ∀ i ∈ indices, i = 0 ∨ i = 1) (hlen : indices.length = n) :
    (basis_from_indices n indices).map Prod.snd = .ok indices.reverse := by
  have hconv : ∀ i ∈ indices, 0 ≤ i ∧ i ≤ 1 := fun i hi => by
    have := h01 i hi
    omega
  rw [basis_from_indices_ok n hn indices hconv hlen]
  rfl

/-- Witness for the amended C9 at the concrete input `n = 2`, `indices = [0, 1]`. -/
theorem C9_witness :
    1 ≤ 2 ∧ (∀ i ∈ [(0 : ℤ), 1], i = 0 ∨ i = 1) ∧ ([(0 : ℤ), 1] : List ℤ).length = 2 ∧
    (basis_from_indices 2 [0, 1]).map Prod.snd = .ok ([(0 : ℤ), 1].reverse) :=
  ⟨by norm_num, by decide, rfl, C9_reverse_in_place 2 (by norm_num) [0, 1] (by decide) rfl⟩

/-!
Lemma chain for the density-matrix claim C3.
-/

theorem onb_matrices_one : onb_matrices 1 = .ok [[1, 0], [0, 1]] := by
  rw [onb_matrices_eq 1 (le_refl 1)]
  norm_num [unitVec, List.range_succ]

theorem density_matrix_two (x y : ℂ) :
    density_matrix 1 [x, y] =
      .ok [[(x * (starRingEnd ℂ) x).re, (x * (starRingEnd ℂ) y).re],
           [(y * (starRingEnd ℂ) x).re, (y * (starRingEnd ℂ) y).re]] := by
  unfold density_matrix
  rw [onb_matrices_one]
  simp [Except.map, Density_Matrix, conjL, dotL, List.range_succ]

theorem re_mul_conj_symm (z w : ℂ) :
    (z * (starRingEnd ℂ) w).re = (w * (starRingEnd ℂ) z).re := by
  have h : z * (starRingEnd ℂ) w = (starRingEnd ℂ) (w * (starRingEnd ℂ) z) := by
    rw [map_mul, RingHomCompTriple.comp_apply]
    simp [mul_comm]
  rw [h, Complex.conj_re]

theorem trace_two_formula (z w : ℂ) :
    (z * (starRingEnd ℂ) z).re + (w * (starRingEnd ℂ) w).re =
      Complex.normSq z + Complex.normSq w := by
  rw [Complex.mul_conj, Complex.mul_conj]
  simp

theorem addL_base (c0 c1 : ℂ) : addL (smulL c0 base_zero) (smulL c1 base_one) = [c0, c1] := by
  simp [addL, smulL, base_zero, base_one]

theorem make_state_angles (a b : ℝ) :
    make_state (some a) (some b) none =
      .ok [((Real.cos (b / 2) : ℝ) : ℂ),
           ((Real.sin (b / 2) : ℝ) : ℂ) * Complex.exp (Complex.I * (a : ℂ))] := by
  rw [show make_state (some a) (some b) none =
      .ok (addL (smulL ((Real.cos (b / 2) : ℝ) : ℂ) base_zero)
        (smulL (((Real.sin (b / 2) : ℝ) : ℂ) * Complex.exp (Complex.I * (a : ℂ)))
          base_one)) from rfl]
  rw [addL_base]

theorem make_state_coeffs (c0 c1 : ℂ) :
    make_state none none (some [c0, c1]) =
      .ok [c0 / (npNorm [c0, c1] : ℂ), c1 / (npNorm [c0, c1] : ℂ)] := by
  rw [show make_state none none (some [c0, c1]) =
      (if ([c0, c1] : List ℂ).length ≠ 2 then .error "MatrixRepresentationError"
       else .ok (addL (smulL ((normalize [c0, c1]).getD 0 0) base_zero)
         (smulL ((normalize [c0, c1]).getD 1 0) base_one))) from rfl]
  rw [if_neg (by simp)]
  simp only [normalize, List.map_cons, List.map_nil, List.getD_cons_zero,
    List.getD_cons_succ]
  rw [addL_base]

theorem normSq_exp_I_mul (a : ℝ) :
    Complex.normSq (Complex.exp (Complex.I * (a : ℂ))) = 1 := by
  rw [← Complex.sq_abs, Complex.abs_exp]
  simp

/-- C3 (amended): for every state built by `make_state` (from any angles, or from
a nonzero length-2 coefficient list), the derived density matrix has entries
`ρ[i][j] = Re(⟨e_i|ψ⟩ ⟨ψ|e_j⟩)` — the real part of the rank-one projector entry,
the imaginary part being discarded by the float64 array — and is symmetric
(Hermitian) with trace exactly 1. -/
theorem C3_density_matrix_props :
    (∀ a b : ℝ, ∃ ψ ρ,
      make_state (some a) (some b) none = .ok ψ ∧
      density_matrix 1 ψ = .ok ρ ∧
      (∀ i j, i < 2 → j < 2 →
        (ρ.getD i []).getD j 0 = (ψ.getD i 0 * (starRingEnd ℂ) (ψ.getD j 0)).re) ∧
      (∀ i j, i < 2 → j < 2 → (ρ.getD i []).getD j 0 = (ρ.getD j []).getD i 0) ∧
      (ρ.getD 0 []).getD 0 0 + (ρ.getD 1 []).getD 1 0 = 1) ∧
    (∀ c0 c1 : ℂ, (c0 ≠ 0 ∨ c1 ≠ 0) → ∃ ψ ρ,
      make_state none none (some [c0, c1]) = .ok ψ ∧
      density_matrix 1 ψ = .ok ρ ∧
      (∀ i j, i < 2 → j < 2 →
        (ρ.getD i []).getD j 0 = (ψ.getD i 0 * (starRingEnd ℂ) (ψ.getD j 0)).re) ∧
      (∀ i j, i < 2 → j < 2 → (ρ.getD i []).getD j 0 = (ρ.getD j []).getD i 0) ∧
      (ρ.getD 0 []).getD 0 0 + (ρ.getD 1 []).getD 1 0 = 1) := by
  have hentry : ∀ x y : ℂ,
      (∀ i j, i < 2 → j < 2 →
        (([[(x * (starRingEnd ℂ) x).re, (x * (starRingEnd ℂ) y).re],
           [(y * (starRingEnd ℂ) x).re, (y * (starRingEnd ℂ) y).re]] :
            List (List ℝ)).getD i []).getD j 0 =
          (([x, y] : List ℂ).getD i 0 *
            (starRingEnd ℂ) (([x, y] : List ℂ).getD j 0)).re) := by
    intro x y i j hi hj
    interval_cases i <;> interval_cases j <;> rfl
  have hherm : ∀ x y : ℂ,
      (∀ i j, i < 2 → j < 2 →
        (([[(x * (starRingEnd ℂ) x).re, (x * (starRingEnd ℂ) y).re],
           [(y * (starRingEnd ℂ) x).re, (y * (starRingEnd ℂ) y).re]] :
            List (List ℝ)).getD i []).getD j 0 =
          (([[(x * (starRingEnd ℂ) x).re, (x * (starRingEnd ℂ) y).re],
             [(y * (starRingEnd ℂ) x).re, (y * (starRingEnd ℂ) y).re]] :
              List (List ℝ)).getD j []).getD i 0) := by
    intro x y i j hi hj
    interval_cases i <;> interval_cases j <;>
      simp only [List.getD_cons_zero, List.getD_cons_succ] <;>
      first
      | rfl
      | apply re_mul_conj_symm
  constructor
  · intro a b
    refine ⟨_, _, make_state_angles a b, density_matrix_two _ _, hentry _ _, hherm _ _, ?_⟩
    simp only [List.getD_cons_zero, List.getD_cons_succ]
    rw [trace_two_formula, Complex.normSq_ofReal, Complex.normSq_mul,
      Complex.normSq_ofReal, normSq_exp_I_mul, mul_one,
      ← Real.sin_sq_add_cos_sq (b / 2)]
    ring
  · intro c0 c1 hc
    refine ⟨_, _, make_state_coeffs c0 c1, density_matrix_two _ _, hentry _ _, hherm _ _, ?_⟩
    simp only [List.getD_cons_zero, List.getD_cons_succ]
    have hS : (0 : ℝ) < Complex.abs c0 ^ 2 + (Complex.abs c1 ^ 2 + 0) := by
      rcases hc with hc | hc
      · have h0 : 0 < Complex.abs c0 := AbsoluteValue.pos _ hc
        positivity
      · have h0 : 0 < Complex.abs c1 := AbsoluteValue.pos _ hc
        positivity
    have hNsq : npNorm [c0, c1] * npNorm [c0, c1] =
        Complex.abs c0 ^ 2 + (Complex.abs c1 ^ 2 + 0) := by
      unfold npNorm
      simp only [List.map_cons, List.map_nil, List.sum_cons, List.sum_nil]
      exact Real.mul_self_sqrt (le_of_lt hS)
    rw [trace_two_formula, Complex.normSq_div, Complex.normSq_div,
      Complex.normSq_ofReal, hNsq, div_add_div_same, ← Complex.sq_abs, ← Complex.sq_abs]
    rw [show Complex.abs c0 ^ 2 + Complex.abs c1 ^ 2 =
        Complex.abs c0 ^ 2 + (Complex.abs c1 ^ 2 + 0) by ring]
    exact div_self (ne_of_gt hS)

/-- Witness for the amended C3 on the coefficient branch at `coeffs = [1, 0]`
(the angle branch has no hypothesis). -/
theorem C3_witness :
    ((1 : ℂ) ≠ 0 ∨ (0 : ℂ) ≠ 0) ∧
    (∃ ψ ρ,
      make_state none none (some [1, 0]) = .ok ψ ∧
      density_matrix 1 ψ = .ok ρ ∧
      (∀ i j, i < 2 → j < 2 →
        (ρ.getD i []).getD j 0 = (ψ.getD i 0 * (starRingEnd ℂ) (ψ.getD j 0)).re) ∧
      (∀ i j, i < 2 → j < 2 → (ρ.getD i []).getD j 0 = (ρ.getD j []).getD i 0) ∧
      (ρ.getD 0 []).getD 0 0 + (ρ.getD 1 []).getD 1 0 = 1) :=
  ⟨Or.inl one_ne_zero, C3_density_matrix_props.2 1 0 (Or.inl one_ne_zero)⟩

/-- C3 counterexample: for the state `make_state(coeffs=[1, 1j])`, the stored
entry `ρ[0][1]` is `0` (the float64 array keeps only the real part), while the
claimed value `⟨e_0|ψ⟩ ⟨ψ|e_1⟩ = -i/2` is nonzero, so the literal entry formula
of the claim fails. -/
theorem C3_density_matrix_drops_imag :
    make_state none none (some [1, Complex.I]) = .ok psiC ∧
    density_matrix 1 psiC = .ok [[1 / 2, 0], [0, 1 / 2]] ∧
    (((([[(1 : ℝ) / 2, 0], [0, 1 / 2]] : List (List ℝ)).getD 0 []).getD 1 0 : ℂ) ≠
      psiC.getD 0 0 * (starRingEnd ℂ) (psiC.getD 1 0)) := by
  have hs2 : (0 : ℝ) < Real.sqrt 2 := Real.sqrt_pos.mpr (by norm_num)
  have hs2c : ((Real.sqrt 2 : ℝ) : ℂ) ≠ 0 := by
    rw [Ne, Complex.ofReal_eq_zero]
    exact ne_of_gt hs2
  have hmul2 : ((Real.sqrt 2 : ℝ) : ℂ) * ((Real.sqrt 2 : ℝ) : ℂ) = 2 := by
    rw [← Complex.ofReal_mul, Real.mul_self_sqrt (by norm_num : (0 : ℝ) ≤ 2)]
    norm_num
  have hrr : Real.sqrt 2 * Real.sqrt 2 = 2 := Real.mul_self_sqrt (by norm_num : (0 : ℝ) ≤ 2)
  have hnorm : npNorm [1, Complex.I] = Real.sqrt 2 := by
    unfold npNorm
    simp
    norm_num
  have hprod : (1 / ((Real.sqrt 2 : ℝ) : ℂ)) *
      (starRingEnd ℂ) (Complex.I / ((Real.sqrt 2 : ℝ) : ℂ)) = -Complex.I / 2 := by
    rw [map_div₀, Complex.conj_I, Complex.conj_ofReal]
    field_simp
    linear_combination -hmul2
  have h00 : ((1 / ((Real.sqrt 2 : ℝ) : ℂ)) *
      (starRingEnd ℂ) (1 / ((Real.sqrt 2 : ℝ) : ℂ))).re = 1 / 2 := by
    rw [Complex.mul_conj]
    rw [show Complex.normSq (1 / ((Real.sqrt 2 : ℝ) : ℂ)) = 1 / 2 by
      rw [Complex.normSq_div, Complex.normSq_ofReal, Complex.normSq_one, hrr]]
    simp
  have h11 : ((Complex.I / ((Real.sqrt 2 : ℝ) : ℂ)) *
      (starRingEnd ℂ) (Complex.I / ((Real.sqrt 2 : ℝ) : ℂ))).re = 1 / 2 := by
    rw [Complex.mul_conj]
    rw [show Complex.normSq (Complex.I / ((Real.sqrt 2 : ℝ) : ℂ)) = 1 / 2 by
      rw [Complex.normSq_div, Complex.normSq_ofReal, Complex.normSq_I, hrr]]
    simp
  have h01 : ((1 / ((Real.sqrt 2 : ℝ) : ℂ)) *
      (starRingEnd ℂ) (Complex.I / ((Real.sqrt 2 : ℝ) : ℂ))).re = 0 := by
    rw [hprod]
    simp [Complex.div_re]
  have h10 : ((Complex.I / ((Real.sqrt 2 : ℝ) : ℂ)) *
      (starRingEnd ℂ) (1 / ((Real.sqrt 2 : ℝ) : ℂ))).re = 0 := by
    rw [re_mul_conj_symm, hprod]
    simp [Complex.div_re]
  refine ⟨?_, ?_, ?_⟩
  · rw [make_state_coeffs 1 Complex.I, hnorm]
    rfl
  · show density_matrix 1
        [1 / ((Real.sqrt 2 : ℝ) : ℂ), Complex.I / ((Real.sqrt 2 : ℝ) : ℂ)] = _
    rw [density_matrix_two, h00, h01, h10, h11]
  · show ((((0 : ℝ)) : ℂ)) ≠ (1 / ((Real.sqrt 2 : ℝ) : ℂ)) *
      (starRingEnd ℂ) (Complex.I / ((Real.sqrt 2 : ℝ) : ℂ))
    rw [hprod, Complex.ofReal_zero]
    intro h
    have him := congrArg Complex.im h
    rw [show (-Complex.I / 2).im = -(1 / 2) by
      simp [Complex.div_im]
      norm_num] at him
    norm_num at him

/-!
Lemma chain for the canonical-density-matrix claim C8.
-/

theorem canonical_trace_ne_zero {d : ℕ} (hd : 0 < d) (H : Matrix (Fin d) (Fin d) ℂ)
    (hH : H.IsHermitian) (c : ℝ) :
    (NormedSpace.exp ℂ ((c : ℂ) • H)).trace ≠ 0 := by
  set A : Matrix (Fin d) (Fin d) ℂ := (c : ℂ) • H with hA
  have hAH : A.conjTranspose = A := by
    rw [hA, Matrix.conjTranspose_smul, hH.eq]
    congr 1
    rw [Complex.star_def, Complex.conj_ofReal]
  have hhalf : A = (2⁻¹ : ℂ) • A + (2⁻¹ : ℂ) • A := by
    rw [← add_smul]
    norm_num
  set B := NormedSpace.exp ℂ ((2⁻¹ : ℂ) • A) with hB
  have hBB : NormedSpace.exp ℂ A = B * B := by
    conv_lhs => rw [hhalf]
    rw [Matrix.exp_add_of_commute _ _ _ (Commute.refl _)]
  have hBH : B.conjTranspose = B := by
    rw [hB, ← Matrix.exp_conjTranspose]
    congr 1
    rw [Matrix.conjTranspose_smul, hAH]
    congr 1
    simp
  have hone : (1 : Matrix (Fin d) (Fin d) ℂ) ≠ 0 := by
    intro h10
    have h00 := congrFun (congrFun h10 ⟨0, hd⟩) ⟨0, hd⟩
    simp [Matrix.one_apply] at h00
  have hBne : B ≠ 0 := by
    intro hB0
    obtain ⟨u, hu⟩ := Matrix.isUnit_exp ℂ ((2⁻¹ : ℂ) • A)
    rw [← hB] at hu
    have h1 := u.mul_inv
    rw [hu, hB0, zero_mul] at h1
    exact hone h1.symm
  have hSpos : 0 < ∑ i : Fin d, ∑ j : Fin d, Complex.normSq (B j i) := by
    obtain ⟨i0, j0, hij⟩ : ∃ i j, B i j ≠ 0 := by
      by_contra hall
      push_neg at hall
      apply hBne
      ext i j
      simpa using hall i j
    apply Finset.sum_pos'
    · intro i _
      exact Finset.sum_nonneg (fun j _ => Complex.normSq_nonneg _)
    · refine ⟨j0, Finset.mem_univ _, Finset.sum_pos' (fun j _ => Complex.normSq_nonneg _) ?_⟩
      exact ⟨i0, Finset.mem_univ _, Complex.normSq_pos.mpr hij⟩
  have htr : (NormedSpace.exp ℂ A).trace =
      ((∑ i : Fin d, ∑ j : Fin d, Complex.normSq (B j i) : ℝ) : ℂ) := by
    rw [hBB]
    nth_rewrite 1 [← hBH]
    rw [Matrix.trace]
    push_cast
    apply Finset.sum_congr rfl
    intro i _
    simp only [Matrix.diag_apply, Matrix.mul_apply, Matrix.conjTranspose_apply]
    apply Finset.sum_congr rfl
    intro j _
    rw [mul_comm, Complex.star_def, Complex.mul_conj]
  rw [htr, Ne, Complex.ofReal_eq_zero]
  exact ne_of_gt hSpos

/-- C8 (amended): `canonical_density_matrix` raises an invalid-input error
exactly when `temperature ≤ 0`; for every positive temperature it returns the
unit-trace normalization of `exp(-(h / k_B) · H · 2π · 1e6 / T)` built from the
(non-reduced) Planck constant `scipy.constants.Planck`, and `unit_trace` holds
on its output for every Hermitian Hamiltonian on a nonempty space. -/
theorem C8_canonical (d : ℕ) (hd : 0 < d) (H : Matrix (Fin d) (Fin d) ℂ)
    (hH : H.IsHermitian) (T : ℝ) :
    ((∃ e, canonical_density_matrix H T = .error e) ↔ T ≤ 0) ∧
    (0 < T → canonical_density_matrix H T =
      .ok (Qobj.unit (NormedSpace.exp ℂ
        (((-(Planck / Boltzmann) * 2 * Real.pi * 1e6 / T : ℝ) : ℂ) • H)))) ∧
    (0 < T → ∀ q, canonical_density_matrix H T = .ok q → unit_trace q) := by
  unfold canonical_density_matrix
  by_cases hT : T ≤ 0
  · rw [if_pos hT]
    exact ⟨⟨fun _ => hT, fun _ => ⟨_, rfl⟩⟩,
      fun h0 => absurd hT (not_le.mpr h0),
      fun h0 => absurd hT (not_le.mpr h0)⟩
  · rw [if_neg hT]
    push_neg at hT
    refine ⟨⟨?_, fun hle => absurd hle (not_le.mpr hT)⟩, fun _ => rfl, ?_⟩
    · rintro ⟨e, he⟩
      exact absurd he (by simp)
    · intro _ q hq
      have hq2 : Qobj.unit (NormedSpace.exp ℂ
          (((-(Planck / Boltzmann) * 2 * Real.pi * 1e6 / T : ℝ) : ℂ) • H)) = q := by
        injection hq
      rw [← hq2]
      unfold Qobj.unit unit_trace
      rw [Matrix.trace_smul, smul_eq_mul,
        inv_mul_cancel₀ (canonical_trace_ne_zero hd H hH _)]
      simp
      norm_num

/-- Witness for the amended C8 at the concrete input `d = 1`, `H = 0`, `T = 1`. -/
theorem C8_witness :
    0 < 1 ∧ (Matrix.IsHermitian (0 : Matrix (Fin 1) (Fin 1) ℂ)) ∧
    (((∃ e, canonical_density_matrix (0 : Matrix (Fin 1) (Fin 1) ℂ) 1 = .error e) ↔
      (1 : ℝ) ≤ 0) ∧
     ((0 : ℝ) < 1 → canonical_density_matrix (0 : Matrix (Fin 1) (Fin 1) ℂ) 1 =
        .ok (Qobj.unit (NormedSpace.exp ℂ
          (((-(Planck / Boltzmann) * 2 * Real.pi * 1e6 / 1 : ℝ) : ℂ) •
            (0 : Matrix (Fin 1) (Fin 1) ℂ))))) ∧
     ((0 : ℝ) < 1 → ∀ q,
        canonical_density_matrix (0 : Matrix (Fin 1) (Fin 1) ℂ) 1 = .ok q → unit_trace q)) :=
  ⟨by norm_num, Matrix.isHermitian_zero,
    C8_canonical 1 (by norm_num) 0 Matrix.isHermitian_zero 1⟩

theorem qobj_unit_exp_smul_diag (c : ℝ) :
    Qobj.unit (NormedSpace.exp ℂ
        ((c : ℂ) • (Matrix.diagonal ![0, 1] : Matrix (Fin 2) (Fin 2) ℂ))) =
      ((1 + Real.exp c : ℝ) : ℂ)⁻¹ •
        Matrix.diagonal ![1, ((Real.exp c : ℝ) : ℂ)] := by
  have hdiag : (c : ℂ) • (Matrix.diagonal ![0, 1] : Matrix (Fin 2) (Fin 2) ℂ) =
      Matrix.diagonal ![0, (c : ℂ)] := by
    rw [← Matrix.diagonal_smul, Matrix.smul_vec2, smul_eq_mul, smul_eq_mul,
      mul_zero, mul_one]
  have harg : NormedSpace.exp ℂ (![0, (c : ℂ)] : Fin 2 → ℂ) =
      ![1, ((Real.exp c : ℝ) : ℂ)] := by
    funext i
    rw [Pi.coe_exp]
    fin_cases i
    · simp [NormedSpace.exp_zero]
    · show NormedSpace.exp ℂ ((![0, (c : ℂ)] : Fin 2 → ℂ) 1) =
        (![1, ((Real.exp c : ℝ) : ℂ)] : Fin 2 → ℂ) 1
      rw [show (![0, (c : ℂ)] : Fin 2 → ℂ) 1 = (c : ℂ) from rfl,
        show (![1, ((Real.exp c : ℝ) : ℂ)] : Fin 2 → ℂ) 1 = ((Real.exp c : ℝ) : ℂ) from rfl,
        ← Complex.exp_eq_exp_ℂ, ← Complex.ofReal_exp]
  have hexp : NormedSpace.exp ℂ (Matrix.diagonal ![0, (c : ℂ)] :
      Matrix (Fin 2) (Fin 2) ℂ) = Matrix.diagonal ![1, ((Real.exp c : ℝ) : ℂ)] := by
    rw [Matrix.exp_diagonal, harg]
  rw [hdiag, hexp]
  unfold Qobj.unit
  rw [Matrix.trace_diagonal, Fin.sum_univ_two]
  rw [show (![1, ((Real.exp c : ℝ) : ℂ)] : Fin 2 → ℂ) 0 = 1 from rfl,
    show (![1, ((Real.exp c : ℝ) : ℂ)] : Fin 2 → ℂ) 1 = ((Real.exp c : ℝ) : ℂ) from rfl]
  push_cast
  rfl

/-- C8 counterexample: the claimed formula uses the reduced Planck constant
`ħ = h / (2π)`, but the code uses `scipy.constants.Planck` (that is, `h`), so
for the Hamiltonian `diag(0, 1)` at `T = 1` the code's thermal state differs
from the claimed `exp(-(ħ/k_B)·H·2π·1e6/T)` normalization — the exponents
differ by a factor of `2π`. -/
theorem C8_hbar_formula_differs :
    canonical_density_matrix (Matrix.diagonal ![0, 1] : Matrix (Fin 2) (Fin 2) ℂ) 1 ≠
      .ok (claimed_canonical (Matrix.diagonal ![0, 1] : Matrix (Fin 2) (Fin 2) ℂ) 1) := by
  have hPB : (0 : ℝ) < Planck / Boltzmann := by
    unfold Planck Boltzmann
    positivity
  have hpi := Real.pi_gt_three
  have hab : -(Planck / Boltzmann) * 2 * Real.pi * 1e6 / 1 ≠
      -(hbar / Boltzmann) * 2 * Real.pi * 1e6 / 1 := by
    unfold hbar
    intro h
    rw [div_one, div_one] at h
    have hpi0 : Real.pi ≠ 0 := by positivity
    have hB0 : Boltzmann ≠ 0 := by
      unfold Boltzmann
      norm_num
    field_simp at h
    rcases h with h | h
    · linarith
    · have hP : (0 : ℝ) < Planck := by
        unfold Planck
        norm_num
      nlinarith [mul_pos hP (show (0 : ℝ) < Real.pi by linarith)]
  unfold canonical_density_matrix claimed_canonical
  rw [if_neg (by norm_num : ¬ (1 : ℝ) ≤ 0)]
  intro hEq
  have hM := Except.ok.inj hEq
  rw [qobj_unit_exp_smul_diag, qobj_unit_exp_smul_diag] at hM
  set a : ℝ := -(Planck / Boltzmann) * 2 * Real.pi * 1e6 / 1 with ha
  set b : ℝ := -(hbar / Boltzmann) * 2 * Real.pi * 1e6 / 1 with hb
  have h00 := congrFun (congrFun hM 0) 0
  rw [Matrix.smul_apply, Matrix.smul_apply, Matrix.diagonal_apply_eq,
    Matrix.diagonal_apply_eq] at h00
  rw [show (![1, ((Real.exp a : ℝ) : ℂ)] : Fin 2 → ℂ) 0 = 1 from rfl,
    show (![1, ((Real.exp b : ℝ) : ℂ)] : Fin 2 → ℂ) 0 = 1 from rfl,
    smul_eq_mul, smul_eq_mul, mul_one, mul_one] at h00
  rw [← Complex.ofReal_inv, ← Complex.ofReal_inv] at h00
  have hreal : (1 + Real.exp a)⁻¹ = (1 + Real.exp b)⁻¹ := by
    exact_mod_cast h00
  have hsum : 1 + Real.exp a = 1 + Real.exp b := by
    have hane : 1 + Real.exp a ≠ 0 := by positivity
    have hbne : 1 + Real.exp b ≠ 0 := by positivity
    exact inv_injective hreal
  have hexp : Real.exp a = Real.exp b := by linarith
  exact hab (Real.exp_injective hexp)

/-- Witness for C6 at the concrete input `h = [3, 5, 7]`, `time_step = 2`. -/
theorem C6_witness :
    2 ≤ [(3 : ℂ), 5, 7].length ∧
    magnus_expansion_1st_term [(3 : ℂ), 5, 7] (2 : ℝ) =
      (-Complex.I * 2 * (Real.pi : ℂ)) • ((((2 : ℝ) : ℂ) / 2) •
        ([(3 : ℂ), 5, 7].getD 0 0 +
          (2 : ℂ) • ((List.range ([(3 : ℂ), 5, 7].length - 2)).map
            (fun t => [(3 : ℂ), 5, 7].getD (t + 1) 0)).sum +
          [(3 : ℂ), 5, 7].getLastD 0)) :=
  ⟨by norm_num, C6_magnus_1st_trapezoid.1 [(3 : ℂ), 5, 7] 2 (by norm_num)⟩

end Pulsee
